import Mathlib

/-!
Verification of the core logic of `src/sysctl/sysctl.cpp` (a C++ port of
systemd's sysctl tool): name normalization, prefix filtering, the
best-effort apply loop with error classification, and the file-parsing
loop.  Strings are modelled as Lean `String` (a wrapper around `List Char`,
matching the byte-wise treatment of `std::string` in the source); error
codes as `Int` (the writer returns 0 on success and a negative errno on
failure, as `sysctl_write` does); the write sink and the INI parse result
are abstract parameters.
-/

namespace Sysctl

/-! ## errno constants used by the source -/

def EPERM : Int := 1
def ENOENT : Int := 2
def EACCES : Int := 13
def EINVAL : Int := 22
def EROFS : Int := 30

/-! ## Name normalization (`sysctl_normalize_cpp`, sysctl.cpp lines 60-79)

The C++ function walks the string with a `found_dot_already` flag,
mutating characters in place; reaching a `/` before any `.` returns the
string as mutated so far (no mutation can have happened yet at that
point, but the embedding keeps the accumulator to stay faithful to the
in-place loop). -/

def sysctl_normalize_loop (found_dot_already : Bool) (acc : List Char) :
    List Char → List Char
  | [] => acc.reverse
  | c :: cs =>
    if c = '/' then
      if found_dot_already then
        sysctl_normalize_loop true ('.' :: acc) cs
      else
        acc.reverse ++ c :: cs
    else if c = '.' then
      sysctl_normalize_loop true ('/' :: acc) cs
    else
      sysctl_normalize_loop found_dot_already (c :: acc) cs

def sysctl_normalize_cpp (s : String) : String :=
  ⟨sysctl_normalize_loop false [] s.data⟩

/-- A delimiter character: `/` or `.` . -/
def delim (c : Char) : Bool := c == '/' || c == '.'

/-- The first delimiter character occurring in `s`, if any. -/
def first_delim (s : String) : Option Char := s.data.find? delim

/-- The transform applied once the dotted convention has been decided:
dots become slashes and slashes become dots. -/
def swap_delim (c : Char) : Char :=
  if c = '.' then '/' else if c = '/' then '.' else c

/-! ### Helper lemmas about the normalization loop -/

theorem normalize_loop_slash_first :
    ∀ (l acc : List Char), l.find? delim = some '/' →
      sysctl_normalize_loop false acc l = acc.reverse ++ l := by
  intro l
  induction l with
  | nil => intro acc h; simp [List.find?] at h
  | cons c cs ih =>
    intro acc h
    by_cases hc : c = '/'
    · subst hc
      simp [sysctl_normalize_loop]
    · by_cases hd : c = '.'
      · subst hd
        rw [List.find?_cons_of_pos _ (by simp [delim])] at h
        simp at h
      · have hdel : delim c = false := by
          simp [delim, hc, hd]
        rw [List.find?_cons_of_neg _ (by simp [hdel])] at h
        have := ih (c :: acc) h
        simp only [sysctl_normalize_loop, if_neg hc, if_neg hd] at *
        rw [this]
        simp

theorem normalize_loop_found :
    ∀ (l acc : List Char),
      sysctl_normalize_loop true acc l = acc.reverse ++ l.map swap_delim := by
  intro l
  induction l with
  | nil => intro acc; simp [sysctl_normalize_loop]
  | cons c cs ih =>
    intro acc
    by_cases hc : c = '/'
    · subst hc
      simp only [sysctl_normalize_loop, if_pos rfl, if_pos trivial, List.map_cons]
      rw [ih ('.' :: acc)]
      simp [swap_delim]
    · by_cases hd : c = '.'
      · subst hd
        simp only [sysctl_normalize_loop, List.map_cons]
        rw [if_pos trivial, ih ('/' :: acc)]
        simp [swap_delim]
      · simp only [sysctl_normalize_loop, if_neg hc, if_neg hd, List.map_cons]
        rw [ih (c :: acc)]
        simp [swap_delim, hc, hd]

theorem normalize_loop_dot_first :
    ∀ (l acc : List Char), l.find? delim = some '.' →
      sysctl_normalize_loop false acc l = acc.reverse ++ l.map swap_delim := by
  intro l
  induction l with
  | nil => intro acc h; simp [List.find?] at h
  | cons c cs ih =>
    intro acc h
    by_cases hc : c = '/'
    · subst hc
      rw [List.find?_cons_of_pos _ (by simp [delim])] at h
      simp at h
    · by_cases hd : c = '.'
      · subst hd
        simp only [sysctl_normalize_loop, List.map_cons]
        rw [if_pos trivial, normalize_loop_found cs ('/' :: acc)]
        simp [swap_delim]
      · have hdel : delim c = false := by
          simp [delim, hc, hd]
        rw [List.find?_cons_of_neg _ (by simp [hdel])] at h
        simp only [sysctl_normalize_loop, if_neg hc, if_neg hd, List.map_cons]
        rw [ih (c :: acc) h]
        simp [swap_delim, hc, hd]

/-- Shared helper: on a string whose first delimiter is a slash, the
normalizer is the identity. -/
theorem normalize_of_slash_first (s : String) (h : first_delim s = some '/') :
    sysctl_normalize_cpp s = s := by
  obtain ⟨l⟩ := s
  simp only [first_delim] at h
  simp only [sysctl_normalize_cpp]
  rw [normalize_loop_slash_first l [] h]
  rfl

/-- Shared helper: on a string whose first delimiter is a dot, the
normalizer swaps every delimiter. -/
theorem normalize_of_dot_first (s : String) (h : first_delim s = some '.') :
    sysctl_normalize_cpp s = ⟨s.data.map swap_delim⟩ := by
  obtain ⟨l⟩ := s
  simp only [first_delim] at h
  simp only [sysctl_normalize_cpp]
  rw [normalize_loop_dot_first l [] h]
  rfl

/-- Per-character relation between an input character and the character
the normalizer may produce at the same position. -/
def char_rel (a b : Char) : Prop :=
  if a = '.' then b = '.' ∨ b = '/'
  else if a = '/' then b = '/' ∨ b = '.'
  else b = a

theorem char_rel_refl (a : Char) : char_rel a a := by
  by_cases h : a = '.'
  · simp [char_rel, h]
  · by_cases h2 : a = '/'
    · simp [char_rel, h, h2]
    · simp [char_rel, h, h2]

theorem forall2_char_rel_refl : ∀ l : List Char, List.Forall₂ char_rel l l := by
  intro l
  induction l with
  | nil => exact List.Forall₂.nil
  | cons c cs ih => exact List.Forall₂.cons (char_rel_refl c) ih

theorem normalize_loop_forall2 :
    ∀ (l : List Char) (found : Bool) (acc : List Char),
      ∃ t, sysctl_normalize_loop found acc l = acc.reverse ++ t ∧
        List.Forall₂ char_rel l t := by
  intro l
  induction l with
  | nil =>
    intro found acc
    exact ⟨[], by simp [sysctl_normalize_loop], List.Forall₂.nil⟩
  | cons c cs ih =>
    intro found acc
    by_cases hc : c = '/'
    · subst hc
      cases found with
      | false =>
        refine ⟨'/' :: cs, by simp [sysctl_normalize_loop], ?_⟩
        exact List.Forall₂.cons (char_rel_refl _) (forall2_char_rel_refl cs)
      | true =>
        obtain ⟨t, ht, hrel⟩ := ih true ('.' :: acc)
        refine ⟨'.' :: t, ?_, ?_⟩
        · simp only [sysctl_normalize_loop, if_pos rfl, if_pos trivial]
          rw [ht]; simp
        · exact List.Forall₂.cons (by simp [char_rel]) hrel
    · by_cases hd : c = '.'
      · subst hd
        obtain ⟨t, ht, hrel⟩ := ih true ('/' :: acc)
        refine ⟨'/' :: t, ?_, ?_⟩
        · simp only [sysctl_normalize_loop]
          rw [if_pos trivial, ht]; simp
        · exact List.Forall₂.cons (by simp [char_rel]) hrel
      · obtain ⟨t, ht, hrel⟩ := ih found (c :: acc)
        refine ⟨c :: t, ?_, ?_⟩
        · simp only [sysctl_normalize_loop, if_neg hc, if_neg hd]
          rw [ht]; simp
        · exact List.Forall₂.cons (by simp [char_rel, hc, hd]) hrel

/-! ## Prefix filtering (`test_prefix`, sysctl.cpp lines 81-95) -/

/-- Modelled from the spec: `path_startswith` is declared in `path-util.h`,
whose implementation is not among the sources; per the spec (§4.2)
"Matching is a plain string-prefix test (byte-wise)", so the call returns
the remainder of `path` after the prefix `pref` when `pref` is a byte-wise
prefix of `path`, and nothing (NULL) otherwise. -/
def path_startswith (path pref : String) : Option String :=
  if pref.data.isPrefixOf path.data then some ⟨path.data.drop pref.data.length⟩
  else none

/-- The filter actually compared against entry names: the filter after
stripping the root `"/proc/sys/"` when present
(`t = path_startswith(i, "/proc/sys/"); if (!t) t = i;`). -/
def strip_root (i : String) : String :=
  match path_startswith i "/proc/sys/" with
  | some t => t
  | none => i

def test_prefix (p : String) (prefixes : List String) : Bool :=
  if prefixes.isEmpty then true
  else prefixes.any (fun i => ( path_startswith p (strip_root i)).isSome)

theorem path_startswith_isSome (p t : String) :
    ( path_startswith p t).isSome = t.data.isPrefixOf p.data := by
  by_cases h : t.data.isPrefixOf p.data = true
  · simp [path_startswith, h]
  · simp [path_startswith, h]

/-! ## The apply loop (`apply_all`, sysctl.cpp lines 97-130)

The Boost ptree holds an ordered list of `(key, value)` string pairs; the
write sink `sysctl_write` is abstracted as a function `w` from name and
value to an `Int` error code (0 on success, negative errno on failure),
and the side effects of the loop — the writes issued and the log calls —
are returned alongside the accumulated `std::error_code r`. -/

inductive LogEvent
  | notice (ec : Int) (value name : String)
  | err (ec : Int) (value name : String)
deriving DecidableEq

/-- The entry name an event logged about. -/
def LogEvent.name : LogEvent → String
  | notice _ _ n => n
  | err _ _ n => n

/-- `IN_SET(k.value(), -EPERM, -EACCES, -EROFS, -ENOENT)` from the benign
branch of the loop. -/
def benign_errno (k : Int) : Bool :=
  k == -EPERM || k == -EACCES || k == -EROFS || k == -ENOENT

/-- One pass over the entries: returns the final `r` (0 when clear), the
writes issued (name, normalized value) in order, and the log events in
order.  The loop keeps the first fatal error in `r` (`if (!r) r = k;`),
which the forward recursion renders by letting the head's fatal code win. -/
def apply_all (w : String → String → Int) (arg_prefixes : List String) :
    List (String × String) → Int × List (String × String) × List LogEvent
  | [] => (0, [], [])
  | (name, value) :: rest =>
    let res := apply_all w arg_prefixes rest
    if test_prefix name arg_prefixes then
      let v := sysctl_normalize_cpp value
      let k := w name v
      if k = 0 then (res.1, (name, v) :: res.2.1, res.2.2)
      else if benign_errno k then
        (res.1, (name, v) :: res.2.1, LogEvent.notice k v name :: res.2.2)
      else (k, (name, v) :: res.2.1, LogEvent.err k v name :: res.2.2)
    else res

/-- The writes the loop issues: every entry passing the filter, with its
value normalized. -/
def attempted_writes (arg_prefixes : List String)
    (entries : List (String × String)) : List (String × String) :=
  (entries.filter (fun e => test_prefix e.1 arg_prefixes)).map
    (fun e => (e.1, sysctl_normalize_cpp e.2))

/-- The first error code in the list that is nonzero and not benign, or 0
when there is none. -/
def first_fatal : List Int → Int
  | [] => 0
  | k :: ks => if k ≠ 0 ∧ benign_errno k = false then k else first_fatal ks

/-- The log calls the loop makes, one per failing write: notice for a
benign errno, error otherwise. -/
def loop_logs (w : String → String → Int) :
    List (String × String) → List LogEvent :=
  List.filterMap (fun q =>
    let k := w q.1 q.2
    if k = 0 then none
    else if benign_errno k then some (LogEvent.notice k q.2 q.1)
    else some (LogEvent.err k q.2 q.1))

/-- Full characterization of the apply loop in terms of the write list. -/
theorem apply_all_eq (w : String → String → Int) (ps : List String) :
    ∀ entries : List (String × String),
      apply_all w ps entries =
        (first_fatal ((attempted_writes ps entries).map (fun q => w q.1 q.2)),
         attempted_writes ps entries,
         loop_logs w (attempted_writes ps entries)) := by
  intro entries
  induction entries with
  | nil => rfl
  | cons e rest ih =>
    obtain ⟨name, value⟩ := e
    simp only [apply_all]
    rw [ih]
    by_cases hp : test_prefix name ps
    · rw [if_pos hp]
      by_cases hk : w name (sysctl_normalize_cpp value) = 0
      · simp [attempted_writes, List.filter_cons, hp, loop_logs, first_fatal, hk]
      · by_cases hb : benign_errno (w name (sysctl_normalize_cpp value)) = true
        · simp [attempted_writes, List.filter_cons, hp, loop_logs, first_fatal,
            hk, hb]
        · simp only [Bool.not_eq_true] at hb
          simp [attempted_writes, List.filter_cons, hp, loop_logs, first_fatal,
            hk, hb]
    · rw [if_neg hp]
      simp only [Bool.not_eq_true] at hp
      simp [attempted_writes, List.filter_cons, hp]

/-! ## The file-parsing loop (`parse_file`, sysctl.cpp lines 132-152)

`read_ini` either succeeds or throws `ini_parser_error`; since it is
called on the same path every iteration, its outcome is a fixed Boolean
`parse_succeeds`.  The `for (;;)` loop is embedded with a fuel bound on
the number of iterations executed: `some r` means the function returned
`r` within that many iterations, `none` that it is still looping. -/

def parse_file_iter (parse_succeeds : Bool) : Nat → Option Int
  | 0 => none
  | n + 1 =>
    if parse_succeeds then parse_file_iter parse_succeeds n
    else some EINVAL

/-- How many times the loop body calls `read_ini` within the given number
of iterations. -/
def parse_file_attempts (parse_succeeds : Bool) : Nat → Nat
  | 0 => 0
  | n + 1 =>
    if parse_succeeds then parse_file_attempts parse_succeeds n + 1
    else 1

/-! ## Prefix normalization at startup (`parse_argv`, sysctl.cpp lines 186-190) -/

def parse_argv_prefixes (arg_prefixes : List String) : List String :=
  arg_prefixes.map (fun p =>
    let q := sysctl_normalize_cpp p
    match path_startswith q "/proc/sys" with
    | some _ => q
    | none => "/proc/sys/" ++ q)

/-! ## Further helper lemmas -/

/-- Every log event the loop emits is about the name of one of the
attempted writes. -/
theorem loop_logs_name_mem (w : String → String → Int)
    (ws : List (String × String)) :
    ∀ ev ∈ loop_logs w ws, ∃ q ∈ ws, ev.name = q.1 := by
  intro ev hev
  simp only [loop_logs, List.mem_filterMap] at hev
  obtain ⟨q, hq, hsome⟩ := hev
  refine ⟨q, hq, ?_⟩
  by_cases hk : w q.1 q.2 = 0
  · simp [hk] at hsome
  · by_cases hb : benign_errno (w q.1 q.2) = true
    · simp only [if_neg hk, if_pos hb, Option.some.injEq] at hsome
      rw [← hsome]; rfl
    · simp only [if_neg hk, if_neg hb, Option.some.injEq] at hsome
      rw [← hsome]; rfl

theorem first_fatal_of_benign :
    ∀ ks : List Int, (∀ k ∈ ks, k = 0 ∨ benign_errno k = true) →
      first_fatal ks = 0 := by
  intro ks
  induction ks with
  | nil => intro _; rfl
  | cons k ks ih =>
    intro hall
    rcases hall k (List.mem_cons_self _ _) with h0 | hb
    · rw [first_fatal, if_neg (by simp [h0])]
      exact ih (fun k hk => hall k (List.mem_cons_of_mem _ hk))
    · rw [first_fatal, if_neg (by simp [hb])]
      exact ih (fun k hk => hall k (List.mem_cons_of_mem _ hk))

theorem first_fatal_ne_zero :
    ∀ ks : List Int, (∃ k ∈ ks, k ≠ 0 ∧ benign_errno k = false) →
      first_fatal ks ≠ 0 := by
  intro ks
  induction ks with
  | nil =>
    rintro ⟨k, hk, _⟩
    simp at hk
  | cons a ks ih =>
    rintro ⟨k, hmem, hprop⟩
    by_cases ha : a ≠ 0 ∧ benign_errno a = false
    · rw [first_fatal, if_pos ha]; exact ha.1
    · rw [first_fatal, if_neg ha]
      rcases List.mem_cons.mp hmem with rfl | hmem2
      · exact absurd hprop ha
      · exact ih ⟨k, hmem2, hprop⟩

/-! ## The claims -/

/-- Claim C4: for every input string in which a `/` occurs before any `.`
(its first delimiter is a slash), `sysctl_normalize_cpp` returns the
entire original string unchanged — no character anywhere is transformed,
including dots after that slash. -/
theorem C4_normalize_slash_form_identity (s : String)
    (h : first_delim s = some '/') : sysctl_normalize_cpp s = s :=
  normalize_of_slash_first s h

theorem C4_witness :
    first_delim "a/b.c" = some '/' ∧ sysctl_normalize_cpp "a/b.c" = "a/b.c" :=
  ⟨by decide, C4_normalize_slash_form_identity "a/b.c" (by decide)⟩

/-- Claim C5: for every input string whose first delimiter is a dot,
`sysctl_normalize_cpp` replaces every `.` by `/` and every `/` (all of
which occur after the first `.`) by `.`, leaving all other characters
unchanged — i.e. it maps `swap_delim` over the string. -/
theorem C5_normalize_dot_form_swaps (s : String)
    (h : first_delim s = some '.') :
    sysctl_normalize_cpp s = ⟨s.data.map swap_delim⟩ :=
  normalize_of_dot_first s h

theorem C5_witness :
    first_delim "a.b.c" = some '.' ∧ sysctl_normalize_cpp "a.b.c" = "a/b/c" :=
  ⟨by decide,
    Eq.trans (C5_normalize_dot_form_swaps "a.b.c" (by decide)) (by decide)⟩

/-- Claim C8: `sysctl_normalize_cpp` is idempotent on slash-form input:
whenever `s` contains a `/` before any `.`, normalizing twice equals
normalizing once. -/
theorem C8_normalize_idempotent_slash_form (s : String)
    (h : first_delim s = some '/') :
    sysctl_normalize_cpp (sysctl_normalize_cpp s) = sysctl_normalize_cpp s := by
  rw [normalize_of_slash_first s h]
  exact normalize_of_slash_first s h

theorem C8_witness :
    sysctl_normalize_cpp (sysctl_normalize_cpp "a/b.c")
      = sysctl_normalize_cpp "a/b.c" :=
  C8_normalize_idempotent_slash_form "a/b.c" (by decide)

/-- Claim C10: normalization preserves length and works strictly
position-wise: each output character equals the input character unless
the input character is `.` (which stays `.` or becomes `/`) or `/` (which
stays `/` or becomes `.`); the empty string maps to the empty string, and
no character is inserted, deleted, or reordered. -/
theorem C10_normalize_shape (s : String) :
    (sysctl_normalize_cpp s).data.length = s.data.length ∧
    List.Forall₂ char_rel s.data (sysctl_normalize_cpp s).data ∧
    sysctl_normalize_cpp "" = "" := by
  obtain ⟨t, ht, hrel⟩ := normalize_loop_forall2 s.data false []
  have hdata : (sysctl_normalize_cpp s).data = t := by
    simp only [sysctl_normalize_cpp]
    rw [ht]
    rfl
  refine ⟨?_, ?_, rfl⟩
  · rw [hdata]
    exact (List.Forall₂.length_eq hrel).symm
  · rw [hdata]
    exact hrel

/-- Claim C9: with an empty filter list, `test_prefix` returns true for
every entry name, so with no prefix filters supplied every entry matches
and none is skipped by filtering (the apply loop writes every entry). -/
theorem C9_empty_filters_match_all :
    (∀ x : String, test_prefix x [] = true) ∧
    ∀ (w : String → String → Int) (entries : List (String × String)),
      (apply_all w [] entries).2.1 =
        entries.map (fun e => (e.1, sysctl_normalize_cpp e.2)) := by
  constructor
  · intro x; rfl
  · intro w entries
    rw [apply_all_eq]
    show attempted_writes [] entries = _
    simp [attempted_writes, test_prefix]

/-- Claim C1 (counterexample): the claim's own example fails.  With
filters `["/proc/sys/net", "/proc/sys/vm"]` the stripped filters are
`"net"` and `"vm"`, and neither is a byte-wise prefix of the entry name
`"/proc/sys/net/ipv4/ip_forward"`, so `test_prefix` returns false where
the claim asserts true. -/
theorem C1_counterexample :
    test_prefix "/proc/sys/net/ipv4/ip_forward"
      ["/proc/sys/net", "/proc/sys/vm"] = false := by decide

/-- Claim C1 (amended): for a nonempty filter list, matching is a plain
byte-wise string-prefix test on the filter after stripping the fixed root
`"/proc/sys/"` if present: `test_prefix p filters` is true iff some
stripped filter is a literal string prefix of `p`.  (Consequently, with
filters `["/proc/sys/net", "/proc/sys/vm"]`, the dotted entry name
`"net.ipv4.ip_forward"` matches, while the absolute names
`"/proc/sys/net/ipv4/ip_forward"` and `"/proc/sys/kernel/panic"` do not;
the filter `"/proc/sys/net"` also matches the entry name `"network"`.) -/
theorem C1_test_prefix_iff (p : String) (filters : List String)
    (h : filters ≠ []) :
    test_prefix p filters = true ↔
      ∃ f ∈ filters, (strip_root f).data.isPrefixOf p.data = true := by
  have hne : ¬(filters.isEmpty = true) := by
    simp only [List.isEmpty_eq_true]
    exact h
  simp only [ test_prefix, if_neg hne, List.any_eq_true, path_startswith_isSome]

theorem C1_witness :
    test_prefix "net.ipv4.ip_forward" ["/proc/sys/net", "/proc/sys/vm"]
      = true :=
  (C1_test_prefix_iff "net.ipv4.ip_forward" ["/proc/sys/net", "/proc/sys/vm"]
    (by decide)).mpr ⟨"/proc/sys/net", by decide, by decide⟩

/-- Claim C2 (code bug): in `parse_file` the only `return` inside the
`for (;;)` loop sits in the `catch` block, so on a parse failure the
function performs exactly one parse attempt and returns EINVAL, but on a
parse success it never returns: after any number of loop iterations it is
still looping, having re-run `read_ini` once per iteration. -/
theorem C2_parse_file_loop (n : Nat) :
    parse_file_iter true n = none ∧
    parse_file_attempts true n = n ∧
    parse_file_iter false (n + 1) = some EINVAL ∧
    parse_file_attempts false (n + 1) = 1 := by
  induction n with
  | zero => exact ⟨rfl, rfl, rfl, rfl⟩
  | succ m ih =>
    refine ⟨?_, ?_, rfl, rfl⟩
    · simpa [parse_file_iter] using ih.1
    · simp [parse_file_attempts, ih.2.1]

/-- Claim C3: end to end, on entries
`[("net.ipv4.ip_forward", "1"), ("kernel.panic", "10")]` with the single
caller-supplied filter `"net"` — which startup normalization turns into
`"/proc/sys/net"` — the apply loop issues exactly one write, for the
first entry, and every log event (if the write fails) concerns the first
entry only: the second entry is skipped with no write and no log. -/
theorem C3_end_to_end (w : String → String → Int) :
    parse_argv_prefixes ["net"] = ["/proc/sys/net"] ∧
    (apply_all w ( parse_argv_prefixes ["net"])
        [("net.ipv4.ip_forward", "1"), ("kernel.panic", "10")]).2.1
      = [("net.ipv4.ip_forward", "1")] ∧
    ∀ ev ∈ (apply_all w ( parse_argv_prefixes ["net"])
        [("net.ipv4.ip_forward", "1"), ("kernel.panic", "10")]).2.2,
      ev.name = "net.ipv4.ip_forward" := by
  have hat : attempted_writes ( parse_argv_prefixes ["net"])
      [("net.ipv4.ip_forward", "1"), ("kernel.panic", "10")]
        = [("net.ipv4.ip_forward", "1")] := by decide
  refine ⟨by decide, ?_, ?_⟩
  · rw [apply_all_eq]
    show attempted_writes _ _ = _
    exact hat
  · intro ev hev
    rw [apply_all_eq] at hev
    have hev2 : ev ∈ loop_logs w (attempted_writes ( parse_argv_prefixes ["net"])
        [("net.ipv4.ip_forward", "1"), ("kernel.panic", "10")]) := hev
    rw [hat] at hev2
    obtain ⟨q, hq, hname⟩ := loop_logs_name_mem w _ ev hev2
    rw [List.mem_singleton] at hq
    subst hq
    exact hname

/-- Claim C6: a write failing with an errno in the benign set
`{EPERM, EACCES, EROFS, ENOENT}` is logged at notice severity and does
not affect the overall result: when every attempted write succeeds or
fails only benignly, the apply loop returns success (0). -/
theorem C6_benign_failures (w : String → String → Int) (ps : List String)
    (entries : List (String × String))
    (h : ∀ q ∈ attempted_writes ps entries,
      w q.1 q.2 = 0 ∨ benign_errno (w q.1 q.2) = true) :
    (apply_all w ps entries).1 = 0 ∧
    ∀ q ∈ attempted_writes ps entries, benign_errno (w q.1 q.2) = true →
      LogEvent.notice (w q.1 q.2) q.2 q.1 ∈ (apply_all w ps entries).2.2 := by
  rw [apply_all_eq]
  constructor
  · show first_fatal _ = 0
    refine first_fatal_of_benign _ ?_
    intro k hk
    rw [List.mem_map] at hk
    obtain ⟨q, hq, rfl⟩ := hk
    exact h q hq
  · intro q hq hb
    show LogEvent.notice _ _ _ ∈ loop_logs w _
    refine List.mem_filterMap.mpr ⟨q, hq, ?_⟩
    have hk : ¬(w q.1 q.2 = 0) := by
      intro h0
      rw [h0] at hb
      exact absurd hb (by decide)
    simp only [if_neg hk, if_pos hb]

theorem C6_witness :
    (apply_all (fun _ _ => -13) [] [("kernel.panic", "10")]).1 = 0 :=
  (C6_benign_failures (fun _ _ => -13) [] [("kernel.panic", "10")]
    (by decide)).1

/-- Claim C7: when some attempted write fails with a non-benign code, the
apply loop still issues every remaining matching write (no early abort),
and its overall result is exactly the code of the first non-benign
failure in input order — later failures, benign or fatal, never displace
it — and that result is nonzero. -/
theorem C7_first_fatal_aggregation (w : String → String → Int)
    (ps : List String) (entries : List (String × String))
    (h : ∃ q ∈ attempted_writes ps entries,
      w q.1 q.2 ≠ 0 ∧ benign_errno (w q.1 q.2) = false) :
    (apply_all w ps entries).2.1 = attempted_writes ps entries ∧
    (apply_all w ps entries).1 =
      first_fatal ((attempted_writes ps entries).map (fun q => w q.1 q.2)) ∧
    (apply_all w ps entries).1 ≠ 0 := by
  rw [apply_all_eq]
  refine ⟨rfl, rfl, ?_⟩
  obtain ⟨q, hq, hk, hb⟩ := h
  show first_fatal _ ≠ 0
  exact first_fatal_ne_zero _ ⟨w q.1 q.2, List.mem_map.mpr ⟨q, hq, rfl⟩, hk, hb⟩

theorem C7_witness :
    (apply_all (fun n _ => if n = "a" then -13 else -99) []
      [("a", "1"), ("b", "2")]).1 = -99 := by
  have h := C7_first_fatal_aggregation (fun n _ => if n = "a" then -13 else -99)
    [] [("a", "1"), ("b", "2")] ⟨("b", "2"), by decide, by decide, by decide⟩
  rw [h.2.1]
  decide

end Sysctl
